import Mathlib

/-!
Verified embedding of the commitment-tree core (`src/lib/tree.py`).

A shallow embedding of the algorithmic core of the hybrid-dispute-emulator
repository: the BFS Merkle-tree builder (`build_bfs_tree`), the power-of-two
padding step and envelope construction of `build_tree_stream`, the
hierarchical projector (`bfs_to_hierarchical`), and the persistence layer
(`load_tree` / `get_tree_hierarchical`).

Modelling conventions:
* A digest (Python `bytes`) is a `List Nat` of byte values; the all-zero
  32-byte digest is `zero32`.
* Keccak-256 (`Web3.keccak`, an external library primitive) is an
  uninterpreted parameter `keccak : Bytes → Bytes` taken by every definition
  that hashes.
* The `"0x"`-prefixed lowercase hex rendering of a digest (`"0x" + node.hex()`
  in the source) is implemented concretely as `bytesToHex0x`.
* JSON documents are the inductive `Json`; the textual serialization
  performed by `json.dump` / `json.load` (Python standard library, external
  to the repository) is abstracted as a pair of parameters
  `dump : Json → String` and `parse : String → Option Json`.
* The filesystem slot written by `build_tree_stream` and read by `load_tree`
  is an `Option String` (the file's contents, or `none` when the file is
  missing).
-/

/-! ## Definitions -/

/-- A byte string (Python `bytes`): a list of byte values. -/
abbrev Bytes := List Nat

/-- The all-zero 32-byte digest (`b'\x00' * 32`, and the decoded
`"0x" + "00"*32`). -/
def zero32 : Bytes := List.replicate 32 0

/-- One iteration of the bottom-up loop of `build_bfs_tree`
(`tree[i] = Web3.keccak(tree[2*i+1] + tree[2*i+2])`). -/
def hashStep (keccak : Bytes → Bytes) (t : List Bytes) (i : Nat) : List Bytes :=
  t.set i (keccak (t.getD (2 * i + 1) [] ++ t.getD (2 * i + 2) []))

/-- The loop `for i in range(leaf_start - 1, -1, -1)` of `build_bfs_tree`:
`buildNodes keccak k t` processes indices `k-1, k-2, ..., 0` in that
(descending) order. -/
def buildNodes (keccak : Bytes → Bytes) : Nat → List Bytes → List Bytes
  | 0, t => t
  | k + 1, t => buildNodes keccak k (hashStep keccak t k)

/-- The builder `build_bfs_tree` (src/lib/tree.py lines 28-56): allocate `2n-1` zero
digests, place `leaves[i]` at index `n-1+i`, then fill internal nodes
bottom-up from `n-2` down to `0`. -/
def build_bfs_tree (keccak : Bytes → Bytes) (leaves : List Bytes) : List Bytes :=
  let n := leaves.length
  if n = 0 then []
  else
    let treeSize := 2 * n - 1
    let tree0 := List.replicate treeSize zero32
    let placed := leaves.enum.foldl (fun t p => t.set (n - 1 + p.1) p.2) tree0
    buildNodes keccak (n - 1) placed

/-- Helper 32-byte digest used by concrete witnesses. -/
def w32 (b : Nat) : Bytes := List.replicate 32 b

/-- Concrete stand-in hash used by witnesses where the statement holds for
every hash function. -/
def wHash : Bytes → Bytes := fun _ => List.replicate 32 1

/-- Executable ceiling base-2 logarithm (fuel-driven; the fuel argument is
always sufficient when it is at least the input). `math.ceil(math.log2 n)`
in the source computes exactly this value for every feasible list length
(the float computation is exact below `2^49`, far beyond any list that fits
in memory). -/
def clog2Go : Nat → Nat → Nat
  | 0, _ => 0
  | fuel + 1, m => if m ≤ 1 then 0 else clog2Go fuel ((m + 1) / 2) + 1

/-- Ceiling base-2 logarithm, the exact value of `math.ceil(math.log2(n))`. -/
def ceilLog2 (n : Nat) : Nat := clog2Go n n

/-- The padding step of `build_tree_stream`:
`depth = max(1, ceil(log2(len))) if len > 1 else 1`, `padded_size = 2**depth`,
`padding_needed = padded_size - len`, filler = last state root (or the
all-zero digest when the input is empty); returns
`(padded_roots, depth, padding_needed)`. -/
def padRoots (stateRoots : List Bytes) : List Bytes × Nat × Nat :=
  let depth := if 1 < stateRoots.length then max 1 (ceilLog2 stateRoots.length) else 1
  let paddedSize := 2 ^ depth
  let paddingNeeded := paddedSize - stateRoots.length
  let paddingHash := match stateRoots.getLast? with
    | some r => r
    | none => zero32
  (stateRoots ++ List.replicate paddingNeeded paddingHash, depth, paddingNeeded)

/-- Lower-case hex digit of a value `< 16`. -/
def hexDigitChar (n : Nat) : Char :=
  if n < 10 then Char.ofNat (48 + n) else Char.ofNat (87 + n)

/-- Two-character lower-case hex rendering of one byte. -/
def byteToHex (b : Nat) : String :=
  String.mk [hexDigitChar (b / 16), hexDigitChar (b % 16)]

/-- The rendering `"0x" + value.hex()` used for every digest stored in
the envelope (src/lib/tree.py line 190). -/
def bytesToHex0x (bs : Bytes) : String :=
  "0x" ++ String.join (bs.map byteToHex)

/-- A JSON document, as produced by `json.load` / consumed by `json.dump`. -/
inductive Json where
  | null
  | bool (b : Bool)
  | num (n : Int)
  | str (s : String)
  | arr (items : List Json)
  | obj (fields : List (String × Json))

/-- First binding of a key in a JSON object's field list (`dict.get`). -/
def lookupField : List (String × Json) → String → Option Json
  | [], _ => none
  | (k, v) :: rest, key => if k = key then some v else lookupField rest key

/-- Python `dict.get(key)` (default `None`). -/
def Json.get (j : Json) (key : String) : Option Json :=
  match j with
  | .obj fields => lookupField fields key
  | _ => none

/-- Python `dict.get(key, default)`. -/
def Json.getD (j : Json) (key : String) (d : Json) : Json :=
  (j.get key).getD d

/-- Python truthiness of a JSON value (`if not tree_data`). -/
def Json.isTruthy : Json → Bool
  | .null => false
  | .bool b => b
  | .num n => n != 0
  | .str s => !(s == "")
  | .arr xs => !xs.isEmpty
  | .obj fs => !fs.isEmpty

/-- The dynamically-typed JSON list of hex strings, as the projector receives
it. On values that are not arrays of strings (which a well-formed envelope
never stores, and on which the Python code would fail later, not here) the
placeholder results are irrelevant to every theorem below. -/
def jsonToStrList : Json → List String
  | .arr xs => xs.map (fun j => match j with | .str s => s | _ => "")
  | _ => []

/-- The dynamically-typed JSON integer (well-formed envelopes store `num`). -/
def jsonToInt : Json → Int
  | .num n => n
  | _ => 0

/-- The dynamically-typed JSON natural number (envelope `depth`). -/
def jsonToNat : Json → Nat
  | .num n => n.toNat
  | _ => 0

/-- The Tree Envelope (the `result` dict of src/lib/tree.py lines 192-204).
`blocks` entries are `(number, stateRoot)` pairs. -/
structure Envelope where
  blockStart : Int
  blockEnd : Int
  depth : Nat
  numBlocks : Int
  numLeaves : Nat
  paddingLeaves : Nat
  rootCommitment : Option String
  blocks : List (Int × String)
  commitmentsBFS : List String

/-- The JSON document `json.dump` receives for an envelope (field names and
order exactly as in the source). -/
def encodeEnvelope (e : Envelope) : Json :=
  .obj [
    ("scenario", .str "devnet_tree"),
    ("blockStart", .num e.blockStart),
    ("blockEnd", .num e.blockEnd),
    ("depth", .num e.depth),
    ("numBlocks", .num e.numBlocks),
    ("numLeaves", .num e.numLeaves),
    ("paddingLeaves", .num e.paddingLeaves),
    ("rootCommitment",
      match e.rootCommitment with | some s => .str s | none => .null),
    ("blocks", .arr (e.blocks.map
      (fun p => .obj [("number", .num p.1), ("stateRoot", .str p.2)]))),
    ("commitmentsBFS", .arr (e.commitmentsBFS.map .str))
  ]

/-- A tagged event yielded by `build_tree_stream`. The free-text payload of
the `complete` summary (depth, node counts, root, path) carries no
information the envelope does not already hold and is elided. -/
inductive Event where
  | progress (step : String) (message : String)
  | error (message : String)
  | complete
deriving DecidableEq

/-- A terminal event (`error` or `complete`). -/
def Event.isTerminal : Event → Bool
  | .progress _ _ => false
  | _ => true

/-- Is this event `complete`? -/
def Event.isComplete : Event → Bool
  | .complete => true
  | _ => false

/-- The state-root collection loop of `build_tree_stream` (lines 140-164):
one `collecting` progress event per block; on a missing root, an `error`
event and failure; otherwise the list of `(block number, root)` pairs.
`total` is `num_blocks` (for the message only), `b` the current block,
`idx` the zero-based iteration index, and the last argument the number of
blocks still to fetch. -/
def collectLoop (fetch : Int → Option Bytes) (total : Nat) :
    Int → Nat → Nat → List Event × Option (List (Int × Bytes))
  | _, _, 0 => ([], some [])
  | b, idx, m + 1 =>
    let ev := Event.progress "collecting"
      ("Collecting state root " ++ toString (idx + 1) ++ "/" ++ toString total ++
        " (block " ++ toString b ++ ")")
    match fetch b with
    | none =>
      ([ev, Event.error ("Failed to get state root for block " ++ toString b)], none)
    | some r =>
      let rest := collectLoop fetch total (b + 1) (idx + 1) m
      (ev :: rest.1, rest.2.map (fun l => (b, r) :: l))

/-- The orchestrator `build_tree_stream` (src/lib/tree.py lines 117-223), as a function from
the fetch collaborator and the prior contents of the output file to the
full event sequence and the file contents afterwards. The file is written
only on the success path (lines 206-210), where it receives the dumped
envelope; on the error path the generator returns with the file untouched. -/
def buildTreeStream (keccak : Bytes → Bytes) (dump : Json → String)
    (fetch : Int → Option Bytes) (blockStart blockEnd : Int)
    (prior : Option String) : List Event × Option String :=
  let started := Event.progress "started"
    ("Building tree for blocks " ++ toString blockStart ++ " -> " ++ toString blockEnd)
  let numBlocks : Int := blockEnd - blockStart + 1
  let n : Nat := (blockEnd + 1 - blockStart).toNat
  let collected := collectLoop fetch n blockStart 0 n
  match collected.2 with
  | none => (started :: collected.1, prior)
  | some pairs =>
    let stateRoots := pairs.map Prod.snd
    let building := Event.progress "building"
      ("Collected " ++ toString stateRoots.length ++ " state roots, building tree...")
    let padded := padRoots stateRoots
    let treeBytes := build_bfs_tree keccak padded.1
    let treeHex := treeBytes.map bytesToHex0x
    let env : Envelope := {
      blockStart := blockStart
      blockEnd := blockEnd
      depth := padded.2.1
      numBlocks := numBlocks
      numLeaves := 2 ^ padded.2.1
      paddingLeaves := padded.2.2
      rootCommitment := treeHex.head?
      blocks := pairs.map (fun p => (p.1, bytesToHex0x p.2))
      commitmentsBFS := treeHex }
    (started :: collected.1 ++ [building, Event.complete],
      some (dump (encodeEnvelope env)))

/-- A node of the hierarchical view. `level` is the dict's `depth` field;
`children` is `none` exactly when the dict has no `children` key. -/
inductive HNode where
  | mk (name : String) (hash : String) (level : Nat) (blockRange : Int × Int)
      (isLeaf : Bool) (children : Option (List HNode))

/-- The `children` field of a hierarchical node. -/
def HNode.childrenD : HNode → Option (List HNode)
  | .mk _ _ _ _ _ c => c

/-- The `blockRange` field of a hierarchical node. -/
def HNode.blockRangeD : HNode → Int × Int
  | .mk _ _ _ r _ _ => r

/-- The `isLeaf` field of a hierarchical node. -/
def HNode.isLeafD : HNode → Bool
  | .mk _ _ _ _ b _ => b

/-- The recursive `build_node` inside `bfs_to_hierarchical` (lines 80-112): out-of-bounds
indices give `none` (Python `None`); a node at `level == depth` is a leaf;
otherwise the range is halved at `mid = (range_start + range_end) // 2`
(Python floor division) and present children are collected left-to-right,
the `children` key existing only when at least one child exists. -/
def buildNode (bfs : List String) (depth : Nat) (index level : Nat)
    (rangeStart rangeEnd : Int) : Option HNode :=
  if h : bfs.length ≤ index then none
  else
    let hashVal := bfs.getD index ""
    if level == depth then
      some (.mk (hashVal.take 10 ++ "...") hashVal level (rangeStart, rangeEnd)
        true none)
    else
      let mid := Int.fdiv (rangeStart + rangeEnd) 2
      let left := buildNode bfs depth (2 * index + 1) (level + 1) rangeStart mid
      let right := buildNode bfs depth (2 * index + 2) (level + 1) (mid + 1) rangeEnd
      let children := left.toList ++ right.toList
      some (.mk (hashVal.take 10 ++ "...") hashVal level (rangeStart, rangeEnd)
        false (if children.isEmpty then none else some children))
termination_by bfs.length - index
decreasing_by all_goals omega

/-- The projector `bfs_to_hierarchical` (lines 59-114): empty array gives the empty result
(Python `{}`), otherwise recursive descent from index 0, level 0, range
`[block_start, block_end]`. -/
def bfs_to_hierarchical (bfsArray : List String) (blockStart blockEnd : Int)
    (depth : Nat) : Option HNode :=
  if bfsArray.isEmpty then none
  else buildNode bfsArray depth 0 0 blockStart blockEnd

/-- The loader `load_tree` (lines 226-232): a missing file or failing parse is caught
and returns `None`. -/
def load_tree (parse : String → Option Json) (file : Option String) : Option Json :=
  match file with
  | none => none
  | some contents => parse contents

/-- The write of lines 206-210: the output file afterwards holds exactly the
dumped envelope. -/
def save_tree (dump : Json → String) (e : Envelope) : Option String :=
  some (dump (encodeEnvelope e))

/-- The dict returned by `get_tree_hierarchical` (lines 235-256). -/
structure HierView where
  blockStart : Option Json
  blockEnd : Option Json
  depth : Option Json
  totalNodes : Nat
  rootCommitment : Option Json
  tree : Option HNode
  blocks : Json

/-- The reader `get_tree_hierarchical` (lines 235-256): load, return `None` on a falsy
document, otherwise project with the stored `blockStart`/`blockEnd`/`depth`
(defaults 0) and the stored `commitmentsBFS` (default empty). -/
def get_tree_hierarchical (parse : String → Option Json) (file : Option String) :
    Option HierView :=
  match load_tree parse file with
  | none => none
  | some treeData =>
    if treeData.isTruthy then
      some {
        blockStart := treeData.get "blockStart"
        blockEnd := treeData.get "blockEnd"
        depth := treeData.get "depth"
        totalNodes := (jsonToStrList (treeData.getD "commitmentsBFS" (.arr []))).length
        rootCommitment := treeData.get "rootCommitment"
        tree := bfs_to_hierarchical
          (jsonToStrList (treeData.getD "commitmentsBFS" (.arr [])))
          (jsonToInt (treeData.getD "blockStart" (.num 0)))
          (jsonToInt (treeData.getD "blockEnd" (.num 0)))
          (jsonToNat (treeData.getD "depth" (.num 0)))
        blocks := treeData.getD "blocks" (.arr []) }
    else none

/-- Projecting an in-memory envelope directly (the right-hand side of the
round-trip property). -/
def projectEnvelope (e : Envelope) : Option HNode :=
  bfs_to_hierarchical e.commitmentsBFS e.blockStart e.blockEnd e.depth

/-- The shape of a hierarchical view: block ranges only. -/
inductive RTree where
  | node (range : Int × Int) (kids : List RTree)

/-- Observer extracting the tree of block ranges from a hierarchical node,
to bounded depth `fuel`. -/
def rangesOfGo : Nat → HNode → RTree
  | 0, .mk _ _ _ r _ _ => .node r []
  | fuel + 1, .mk _ _ _ r _ c =>
    .node r ((match c with | none => [] | some ks => ks).map (rangesOfGo fuel))

/-- Fuel-driven twin of `buildNode`, used to evaluate the projector on
concrete inputs (equal to `buildNode` whenever the fuel is at least
`bfs.length - index`, by `buildNodeGo_eq`). -/
def buildNodeGo (bfs : List String) (depth : Nat) :
    Nat → Nat → Nat → Int → Int → Option HNode
  | 0, _, _, _, _ => none
  | fuel + 1, index, level, rangeStart, rangeEnd =>
    if bfs.length ≤ index then none
    else
      let hashVal := bfs.getD index ""
      if level == depth then
        some (.mk (hashVal.take 10 ++ "...") hashVal level (rangeStart, rangeEnd)
          true none)
      else
        let mid := Int.fdiv (rangeStart + rangeEnd) 2
        let left := buildNodeGo bfs depth fuel (2 * index + 1) (level + 1) rangeStart mid
        let right := buildNodeGo bfs depth fuel (2 * index + 2) (level + 1) (mid + 1) rangeEnd
        let children := left.toList ++ right.toList
        some (.mk (hashVal.take 10 ++ "...") hashVal level (rangeStart, rangeEnd)
          false (if children.isEmpty then none else some children))

/-- A kernel-evaluable envelope used by the round-trip witness. -/
def wEnvelope : Envelope :=
  { blockStart := 100, blockEnd := 100, depth := 1, numBlocks := 1, numLeaves := 2,
    paddingLeaves := 1, rootCommitment := some "0xroot",
    blocks := [(100, "0xaa")], commitmentsBFS := ["0xroot", "0xaa", "0xaa"] }

/-! ## Theorems -/

theorem hashStep_length (keccak : Bytes → Bytes) (t : List Bytes) (i : Nat) :
    (hashStep keccak t i).length = t.length := by
  simp [hashStep]

theorem buildNodes_length (keccak : Bytes → Bytes) (k : Nat) (t : List Bytes) :
    (buildNodes keccak k t).length = t.length := by
  induction k generalizing t with
  | zero => rfl
  | succ k ih => rw [buildNodes, ih, hashStep_length]

/-- The descending loop writes only below its counter: entries at indices
`≥ k` are untouched by `buildNodes keccak k`. -/
theorem buildNodes_getD_of_le (keccak : Bytes → Bytes) (k : Nat) (t : List Bytes)
    (j : Nat) (hj : k ≤ j) (d : Bytes) :
    (buildNodes keccak k t).getD j d = t.getD j d := by
  induction k generalizing t with
  | zero => rfl
  | succ k ih =>
    rw [buildNodes, ih (hashStep keccak t k) (by omega)]
    simp only [hashStep, List.getD_eq_getElem?_getD]
    rw [List.getElem?_set_ne (by omega)]

/-- After running the loop down from `k`, every index `i < k` holds the hash
of the (final) entries at `2i+1` and `2i+2`. -/
theorem buildNodes_hash (keccak : Bytes → Bytes) (k : Nat) (t : List Bytes)
    (hk : k ≤ t.length) (i : Nat) (hi : i < k) :
    (buildNodes keccak k t).getD i [] =
      keccak ((buildNodes keccak k t).getD (2 * i + 1) [] ++
              (buildNodes keccak k t).getD (2 * i + 2) []) := by
  induction k generalizing t with
  | zero => omega
  | succ k ih =>
    rw [buildNodes]
    rcases Nat.lt_or_ge i k with h | h
    · exact ih (hashStep keccak t k) (by rw [hashStep_length]; omega) h
    · have hik : i = k := by omega
      subst hik
      rw [buildNodes_getD_of_le keccak i _ i le_rfl,
          buildNodes_getD_of_le keccak i _ (2 * i + 1) (by omega),
          buildNodes_getD_of_le keccak i _ (2 * i + 2) (by omega)]
      simp only [hashStep, List.getD_eq_getElem?_getD]
      rw [List.getElem?_set_self (by omega),
          List.getElem?_set_ne (by omega), List.getElem?_set_ne (by omega)]
      rfl

/-- Writing the leaves into the zero-initialised array: folding `set` over an
enumeration-from-`j` overwrites the suffix starting at position `c + j`. -/
theorem foldl_set_enumFrom (l : List Bytes) (t : List Bytes) (c j : Nat)
    (h : t.length = c + j + l.length) :
    (l.enumFrom j).foldl (fun t p => t.set (c + p.1) p.2) t = t.take (c + j) ++ l := by
  induction l generalizing t j with
  | nil =>
    simp only [List.length_nil, Nat.add_zero] at h
    simp only [List.enumFrom, List.foldl_nil, List.append_nil]
    exact (List.take_of_length_le (le_of_eq h)).symm
  | cons a l ih =>
    simp only [List.length_cons] at h
    show (l.enumFrom (j+1)).foldl _ (t.set (c + j) a) = _
    rw [ih (t.set (c + j) a) (j + 1) (by simp only [List.length_set]; omega)]
    rw [List.set_eq_take_cons_drop a (by omega)]
    rw [List.take_append_eq_append_take, List.take_take,
        List.length_take]
    have h1 : min (c + (j+1)) (c + j) = c + j := by omega
    have h2 : c + (j + 1) - min (c + j) t.length = 1 := by omega
    rw [h1, h2]
    simp

/-- On a non-empty leaf list, `build_bfs_tree` is the bottom-up loop run on
the zero-initialised array with the leaves written at indices `n-1+i`. -/
theorem build_bfs_tree_eq (keccak : Bytes → Bytes) (leaves : List Bytes)
    (hne : leaves ≠ []) :
    build_bfs_tree keccak leaves =
      buildNodes keccak (leaves.length - 1)
        (List.replicate (leaves.length - 1) zero32 ++ leaves) := by
  have hn : leaves.length ≠ 0 := fun h => hne (List.length_eq_zero.mp h)
  simp only [build_bfs_tree]
  rw [if_neg hn]
  have h := foldl_set_enumFrom leaves (List.replicate (2 * leaves.length - 1) zero32)
      (leaves.length - 1) 0 (by simp only [List.length_replicate]; omega)
  rw [show leaves.enum = leaves.enumFrom 0 from rfl, h, Nat.add_zero,
      List.take_replicate]
  have hmin : min (leaves.length - 1) (2 * leaves.length - 1) = leaves.length - 1 := by
    omega
  rw [hmin]

/-- C1: for every non-empty list of 32-byte leaves of length `n`,
`build_bfs_tree` returns an array of length `2n−1`, with `leaves[i]` at
index `n−1+i` and, for every internal index `i < n−1`,
`array[i] = keccak (array[2i+1] ++ array[2i+2])` (the hashes being produced
by the bottom-up loop from `n−2` down to `0`). -/
theorem C1_build_bfs_tree_shape (keccak : Bytes → Bytes) (leaves : List Bytes)
    (hne : leaves ≠ []) (h32 : ∀ l ∈ leaves, l.length = 32) :
    (build_bfs_tree keccak leaves).length = 2 * leaves.length - 1 ∧
    (∀ i < leaves.length,
      (build_bfs_tree keccak leaves).getD (leaves.length - 1 + i) [] =
        leaves.getD i []) ∧
    (∀ i < leaves.length - 1,
      (build_bfs_tree keccak leaves).getD i [] =
        keccak ((build_bfs_tree keccak leaves).getD (2 * i + 1) [] ++
                (build_bfs_tree keccak leaves).getD (2 * i + 2) [])) := by
  have hn : leaves.length ≠ 0 := fun h => hne (List.length_eq_zero.mp h)
  rw [build_bfs_tree_eq keccak leaves hne]
  refine ⟨?_, ?_, ?_⟩
  · rw [buildNodes_length]
    simp only [List.length_append, List.length_replicate]
    omega
  · intro i hi
    rw [buildNodes_getD_of_le keccak _ _ _ (by omega),
        List.getD_append_right _ _ _ _ (by simp only [List.length_replicate]; omega)]
    simp only [List.length_replicate]
    congr 1
    omega
  · intro i hi
    exact buildNodes_hash keccak (leaves.length - 1) _
      (by simp only [List.length_append, List.length_replicate]; omega) i hi

theorem C1_build_bfs_tree_shape_witness :
    ([w32 5, w32 7] ≠ ([] : List Bytes)) ∧
    (build_bfs_tree wHash [w32 5, w32 7]).getD 0 [] =
      wHash ((build_bfs_tree wHash [w32 5, w32 7]).getD 1 [] ++
             (build_bfs_tree wHash [w32 5, w32 7]).getD 2 []) :=
  ⟨by decide,
   (C1_build_bfs_tree_shape wHash [w32 5, w32 7] (by decide)
      (by decide)).2.2 0 (by decide)⟩

/-- C9: `build_bfs_tree` on the empty list returns the empty array, and on a
singleton `[x]` returns `[x]` for every hash function (so no hash value can
enter the output: the root is the leaf itself). -/
theorem C9_build_bfs_tree_degenerate (keccak : Bytes → Bytes) (x : Bytes) :
    build_bfs_tree keccak [] = [] ∧ build_bfs_tree keccak [x] = [x] :=
  ⟨rfl, rfl⟩

theorem clog2Go_eq_clog (fuel m : Nat) (h : m ≤ fuel) :
    clog2Go fuel m = Nat.clog 2 m := by
  induction fuel generalizing m with
  | zero =>
    have hm : m = 0 := by omega
    subst hm
    rw [show clog2Go 0 0 = 0 from rfl, Nat.clog_zero_right]
  | succ fuel ih =>
    rw [clog2Go]
    rcases le_or_lt m 1 with h1 | h1
    · rw [if_pos h1, Nat.clog_of_right_le_one h1]
    · have hfuel : (m + 1) / 2 ≤ fuel := by omega
      rw [if_neg (by omega), ih ((m + 1) / 2) hfuel,
          Nat.clog_of_two_le one_lt_two (by omega : 2 ≤ m),
          show m + 2 - 1 = m + 1 from rfl]

/-- The executable `ceilLog2` agrees with Mathlib's ceiling logarithm `Nat.clog 2`. -/
theorem ceilLog2_eq_clog (n : Nat) : ceilLog2 n = Nat.clog 2 n :=
  clog2Go_eq_clog n n le_rfl

/-- The input never exceeds the padded size `2^depth`. -/
theorem length_le_pow_depth (stateRoots : List Bytes) :
    stateRoots.length ≤ 2 ^ (padRoots stateRoots).2.1 := by
  simp only [padRoots]
  rcases Nat.lt_or_ge 1 stateRoots.length with h | h
  · rw [if_pos h]
    calc stateRoots.length ≤ 2 ^ Nat.clog 2 stateRoots.length :=
          Nat.le_pow_clog one_lt_two _
    _ ≤ 2 ^ max 1 (ceilLog2 stateRoots.length) :=
          Nat.pow_le_pow_right (by omega)
            (by rw [ceilLog2_eq_clog]; exact Nat.le_max_right _ _)
  · rw [if_neg (by omega)]
    omega

/-- C2: the padding step computes `depth = max(1, ⌈log2 n⌉)` for `n > 1` and
`depth = 1` for `n ≤ 1`; the returned sequence has length exactly
`2^depth`, obtained by appending `2^depth − n` copies of the last input
element (the all-zero digest when the input is empty) after the unchanged
input. -/
theorem C2_padding_policy (stateRoots : List Bytes) :
    ((padRoots stateRoots).2.1 =
      if stateRoots.length ≤ 1 then 1
      else max 1 (Nat.clog 2 stateRoots.length)) ∧
    (padRoots stateRoots).1.length = 2 ^ (padRoots stateRoots).2.1 ∧
    (padRoots stateRoots).2.2 = 2 ^ (padRoots stateRoots).2.1 - stateRoots.length ∧
    (padRoots stateRoots).1 =
      stateRoots ++
        List.replicate (2 ^ (padRoots stateRoots).2.1 - stateRoots.length)
          (stateRoots.getLastD zero32) := by
  have hle := length_le_pow_depth stateRoots
  refine ⟨?_, ?_, ?_, ?_⟩
  · simp only [padRoots, ceilLog2_eq_clog]
    rcases Nat.lt_or_ge 1 stateRoots.length with h | h
    · rw [if_pos h, if_neg (by omega)]
    · rw [if_neg (by omega), if_pos (by omega)]
  · simp only [padRoots] at hle ⊢
    simp only [List.length_append, List.length_replicate]
    omega
  · rfl
  · simp only [padRoots, List.getLastD_eq_getLast?]
    rcases stateRoots.getLast? with _ | r <;> rfl

theorem buildNodeGo_eq (bfs : List String) (depth : Nat) (fuel index level : Nat)
    (rangeStart rangeEnd : Int) (h : bfs.length ≤ index + fuel) :
    buildNodeGo bfs depth fuel index level rangeStart rangeEnd =
      buildNode bfs depth index level rangeStart rangeEnd := by
  induction fuel generalizing index level rangeStart rangeEnd with
  | zero =>
    rw [buildNode]
    rw [dif_pos (by omega : bfs.length ≤ index)]
    rfl
  | succ fuel ih =>
    rw [buildNode, buildNodeGo]
    rcases le_or_lt bfs.length index with hb | hb
    · rw [if_pos hb, dif_pos hb]
    · rw [if_neg (by omega), dif_neg (by omega)]
      simp only
      rw [ih (2 * index + 1) (level + 1) _ _ (by omega),
          ih (2 * index + 2) (level + 1) _ _ (by omega)]

/-- The recursion `build_node` answers `some` exactly on in-bounds indices. -/
theorem buildNode_isSome (bfs : List String) (depth index level : Nat)
    (rangeStart rangeEnd : Int) :
    (buildNode bfs depth index level rangeStart rangeEnd).isSome = true ↔
      index < bfs.length := by
  rw [buildNode]
  rcases le_or_lt bfs.length index with h | h
  · rw [dif_pos h]
    simp only [Option.isSome_none, Bool.false_eq_true, false_iff]
    omega
  · rw [dif_neg (by omega)]
    simp only
    constructor
    · intro _; exact h
    · intro _
      split <;> simp

/-- Out-of-bounds indices give no node at all. -/
theorem buildNode_none (bfs : List String) (depth index level : Nat)
    (rangeStart rangeEnd : Int) (h : bfs.length ≤ index) :
    buildNode bfs depth index level rangeStart rangeEnd = none := by
  rw [buildNode, dif_pos h]

/-- A non-leaf node at an in-bounds index exists, and its `children` field
is absent exactly when already the left child index `2i+1` is out of
bounds (and then so is `2i+2`). -/
theorem buildNode_children (bfs : List String) (depth index level : Nat)
    (rangeStart rangeEnd : Int) (hin : index < bfs.length) (hlv : level ≠ depth) :
    ∃ node, buildNode bfs depth index level rangeStart rangeEnd = some node ∧
      (node.childrenD = none ↔ bfs.length ≤ 2 * index + 1) := by
  rw [buildNode, dif_neg (by omega)]
  simp only
  rw [if_neg (by simpa using hlv)]
  refine ⟨_, rfl, ?_⟩
  simp only [HNode.childrenD]
  rcases le_or_lt bfs.length (2 * index + 1) with h1 | h1
  · rw [buildNode_none bfs depth (2 * index + 1) (level + 1) _ _ h1,
        buildNode_none bfs depth (2 * index + 2) (level + 1) _ _ (by omega)]
    simpa using h1
  · rcases Option.isSome_iff_exists.mp
        ((buildNode_isSome bfs depth (2 * index + 1) (level + 1) rangeStart
          (Int.fdiv (rangeStart + rangeEnd) 2)).mpr h1) with ⟨x, hx⟩
    rw [hx]
    simp
    omega

/-- C6: for every (possibly truncated) BFS array, block range and depth, the
projector is total: the empty array projects to the empty result, a
non-empty array to a node; out-of-bounds indices yield no node (so a child
is attached only when its index is within bounds); and a non-leaf node
omits the `children` field exactly when neither child index is in bounds. -/
theorem C6_projector_totality (bfs : List String) (blockStart blockEnd : Int)
    (depth : Nat) :
    (bfs = [] → bfs_to_hierarchical bfs blockStart blockEnd depth = none) ∧
    (bfs ≠ [] → (bfs_to_hierarchical bfs blockStart blockEnd depth).isSome = true) ∧
    (∀ index level rangeStart rangeEnd, bfs.length ≤ index →
      buildNode bfs depth index level rangeStart rangeEnd = none) ∧
    (∀ index level rangeStart rangeEnd, index < bfs.length → level ≠ depth →
      ∃ node, buildNode bfs depth index level rangeStart rangeEnd = some node ∧
        (node.childrenD = none ↔ bfs.length ≤ 2 * index + 1)) := by
  refine ⟨?_, ?_, ?_, ?_⟩
  · intro h
    subst h
    rfl
  · intro h
    have hlen : 0 < bfs.length := List.length_pos.mpr h
    rw [bfs_to_hierarchical, if_neg (by simpa using h)]
    exact (buildNode_isSome bfs depth 0 0 blockStart blockEnd).mpr hlen
  · exact fun index level rangeStart rangeEnd h =>
      buildNode_none bfs depth index level rangeStart rangeEnd h
  · exact fun index level rangeStart rangeEnd hin hlv =>
      buildNode_children bfs depth index level rangeStart rangeEnd hin hlv

theorem C6_projector_totality_witness :
    (bfs_to_hierarchical ["0xa", "0xb", "0xc"] 0 2 1).isSome = true :=
  (C6_projector_totality ["0xa", "0xb", "0xc"] 0 2 1).2.1 (by decide)

/-- C10: the midpoint halving never clamps sub-ranges to the real block
range: projecting a 7-entry array with `blockStart = 10`, `blockEnd = 12`,
`depth = 2` gives the rightmost (padded) leaf the inverted blockRange
`[13, 12]`. -/
theorem C10_projector_inverted_range :
    bfs_to_hierarchical ["0xa0", "0xa1", "0xa2", "0xa3", "0xa4", "0xa5", "0xa6"]
        10 12 2 =
      some (.mk "0xa0..." "0xa0" 0 (10, 12) false (some
        [.mk "0xa1..." "0xa1" 1 (10, 11) false (some
          [.mk "0xa3..." "0xa3" 2 (10, 10) true none,
           .mk "0xa4..." "0xa4" 2 (11, 11) true none]),
         .mk "0xa2..." "0xa2" 1 (12, 12) false (some
          [.mk "0xa5..." "0xa5" 2 (12, 12) true none,
           .mk "0xa6..." "0xa6" 2 (13, 12) true none])])) := by
  have hb := buildNodeGo_eq
      ["0xa0", "0xa1", "0xa2", "0xa3", "0xa4", "0xa5", "0xa6"] 2 7 0 0 10 12
      (by norm_num)
  show buildNode ["0xa0", "0xa1", "0xa2", "0xa3", "0xa4", "0xa5", "0xa6"]
      2 0 0 10 12 = _
  rw [← hb]
  rfl

/-- C3: for the four distinct 32-byte leaves `A,B,C,D` covering blocks
100..103: the padding step yields depth 2 and no padding; the BFS array has
7 entries with root `keccak (keccak (A++B) ++ keccak (C++D))`; and the
projection of its hex rendering with `blockStart = 100`, `blockEnd = 103`,
`depth = 2` is a root covering `[100,103]` with children covering
`[100,101]` and `[102,103]`, whose leaf children cover
`[100,100],[101,101]` and `[102,102],[103,103]`. -/
theorem C3_four_leaf_example (keccak : Bytes → Bytes) :
    padRoots [w32 10, w32 11, w32 12, w32 13] =
      ([w32 10, w32 11, w32 12, w32 13], 2, 0) ∧
    (build_bfs_tree keccak [w32 10, w32 11, w32 12, w32 13]).length = 7 ∧
    (build_bfs_tree keccak [w32 10, w32 11, w32 12, w32 13]).getD 0 [] =
      keccak (keccak (w32 10 ++ w32 11) ++ keccak (w32 12 ++ w32 13)) ∧
    (bfs_to_hierarchical
        ((build_bfs_tree keccak [w32 10, w32 11, w32 12, w32 13]).map bytesToHex0x)
        100 103 2).map (rangesOfGo 3) =
      some (.node (100, 103)
        [.node (100, 101) [.node (100, 100) [], .node (101, 101) []],
         .node (102, 103) [.node (102, 102) [], .node (103, 103) []]]) := by
  refine ⟨rfl, rfl, rfl, ?_⟩
  have hlen : ((build_bfs_tree keccak
      [w32 10, w32 11, w32 12, w32 13]).map bytesToHex0x).length = 7 := rfl
  have hb := buildNodeGo_eq
      ((build_bfs_tree keccak [w32 10, w32 11, w32 12, w32 13]).map bytesToHex0x)
      2 7 0 0 100 103 (by rw [hlen])
  show (buildNode
      ((build_bfs_tree keccak [w32 10, w32 11, w32 12, w32 13]).map bytesToHex0x)
      2 0 0 100 103).map (rangesOfGo 3) = _
  rw [← hb]
  rfl

/-- A successful collection yields progress events only. -/
theorem collectLoop_some_events (fetch : Int → Option Bytes) (total m : Nat) :
    ∀ (b : Int) (idx : Nat) (l : List (Int × Bytes)),
    (collectLoop fetch total b idx m).2 = some l →
    ∀ e ∈ (collectLoop fetch total b idx m).1, e.isTerminal = false := by
  induction m with
  | zero =>
    intro b idx l _ e he
    simp [collectLoop] at he
  | succ m ih =>
    intro b idx l hsome e he
    rw [collectLoop] at hsome he
    rcases hfb : fetch b with _ | r <;> rw [hfb] at hsome he
    · simp at hsome
    · simp only at hsome he
      rcases List.mem_cons.mp he with rfl | he
      · rfl
      · rcases Option.map_eq_some'.mp hsome with ⟨l', hl', _⟩
        exact ih (b + 1) (idx + 1) l' hl' e he

/-- A failing collection yields progress events followed by one final
`error` event. -/
theorem collectLoop_none_events (fetch : Int → Option Bytes) (total m : Nat) :
    ∀ (b : Int) (idx : Nat),
    (collectLoop fetch total b idx m).2 = none →
    ∃ pre msg, (collectLoop fetch total b idx m).1 = pre ++ [Event.error msg] ∧
      ∀ e ∈ pre, e.isTerminal = false := by
  induction m with
  | zero =>
    intro b idx hnone
    simp [collectLoop] at hnone
  | succ m ih =>
    intro b idx hnone
    rw [collectLoop] at hnone ⊢
    rcases hfb : fetch b with _ | r <;> rw [hfb] at hnone
    · refine ⟨[Event.progress "collecting"
        ("Collecting state root " ++ toString (idx + 1) ++ "/" ++ toString total ++
          " (block " ++ toString b ++ ")")], _, rfl, ?_⟩
      intro e he
      rcases List.mem_singleton.mp he with rfl
      rfl
    · have hnone' :
          Option.map (fun l => (b, r) :: l)
            (collectLoop fetch total (b + 1) (idx + 1) m).2 = none := hnone
      rcases ih (b + 1) (idx + 1) (Option.map_eq_none'.mp hnone') with
        ⟨pre, msg, heq, hpre⟩
      refine ⟨Event.progress "collecting"
        ("Collecting state root " ++ toString (idx + 1) ++ "/" ++ toString total ++
          " (block " ++ toString b ++ ")") :: pre, msg, ?_, ?_⟩
      · show Event.progress "collecting"
            ("Collecting state root " ++ toString (idx + 1) ++ "/" ++ toString total ++
              " (block " ++ toString b ++ ")") ::
            (collectLoop fetch total (b + 1) (idx + 1) m).1 = _
        rw [heq]
        rfl
      · intro e he
        rcases List.mem_cons.mp he with rfl | he
        · rfl
        · exact hpre e he

/-- If any block in the scanned window has no state root, collection fails. -/
theorem collectLoop_fail (fetch : Int → Option Bytes) (total m : Nat) :
    ∀ (b : Int) (idx : Nat),
    (∃ j : Nat, j < m ∧ fetch (b + j) = none) →
    (collectLoop fetch total b idx m).2 = none := by
  induction m with
  | zero =>
    intro b idx ⟨j, hj, _⟩
    omega
  | succ m ih =>
    intro b idx ⟨j, hj, hfj⟩
    rw [collectLoop]
    rcases hfb : fetch b with _ | r
    · rfl
    · rcases j with _ | j'
      · rw [show b + ((0 : Nat) : Int) = b by simp] at hfj
        rw [hfj] at hfb
        exact absurd hfb (by simp)
      · have hfj' : fetch (b + 1 + j') = none := by
          rw [show b + 1 + (j' : Int) = b + ((j' + 1 : Nat) : Int) by push_cast; ring]
          exact hfj
        show Option.map (fun l => (b, r) :: l)
          (collectLoop fetch total (b + 1) (idx + 1) m).2 = none
        rw [ih (b + 1) (idx + 1) ⟨j', by omega, hfj'⟩]
        rfl

/-- On a failed collection the stream is the started event followed by the
collection events, and the file is left as it was. -/
theorem buildTreeStream_fail_eq (keccak : Bytes → Bytes) (dump : Json → String)
    (fetch : Int → Option Bytes) (blockStart blockEnd : Int) (prior : Option String)
    (hnone : (collectLoop fetch ((blockEnd + 1 - blockStart).toNat) blockStart 0
      ((blockEnd + 1 - blockStart).toNat)).2 = none) :
    buildTreeStream keccak dump fetch blockStart blockEnd prior =
      (Event.progress "started"
          ("Building tree for blocks " ++ toString blockStart ++ " -> " ++
            toString blockEnd) ::
        (collectLoop fetch ((blockEnd + 1 - blockStart).toNat) blockStart 0
          ((blockEnd + 1 - blockStart).toNat)).1,
       prior) := by
  simp only [buildTreeStream]
  rw [hnone]

/-- C4: if the state-root fetch is absent for any block of the requested
range, the stream contains an error event, contains no complete event, and
the output file keeps its prior contents. -/
theorem C4_fetch_failure_aborts (keccak : Bytes → Bytes) (dump : Json → String)
    (fetch : Int → Option Bytes) (blockStart blockEnd : Int) (prior : Option String)
    (hfail : ∃ k : Int, blockStart ≤ k ∧ k ≤ blockEnd ∧ fetch k = none) :
    (∃ msg, Event.error msg ∈
      (buildTreeStream keccak dump fetch blockStart blockEnd prior).1) ∧
    Event.complete ∉ (buildTreeStream keccak dump fetch blockStart blockEnd prior).1 ∧
    (buildTreeStream keccak dump fetch blockStart blockEnd prior).2 = prior := by
  rcases hfail with ⟨k, hks, hke, hkf⟩
  have hnone : (collectLoop fetch ((blockEnd + 1 - blockStart).toNat) blockStart 0
      ((blockEnd + 1 - blockStart).toNat)).2 = none := by
    refine collectLoop_fail fetch _ _ blockStart 0 ⟨(k - blockStart).toNat, by omega, ?_⟩
    have hcast : (((k - blockStart).toNat : Nat) : Int) = k - blockStart :=
      Int.toNat_of_nonneg (by omega)
    rw [hcast, show blockStart + (k - blockStart) = k from by ring]
    exact hkf
  have hstream := buildTreeStream_fail_eq keccak dump fetch blockStart blockEnd
    prior hnone
  rcases collectLoop_none_events fetch _ _ blockStart 0 hnone with ⟨pre, msg, heq, hpre⟩
  refine ⟨⟨msg, ?_⟩, ?_, ?_⟩
  · rw [hstream]
    simp [heq]
  · intro hmem
    rw [hstream] at hmem
    rcases List.mem_cons.mp hmem with hc | hmem
    · exact absurd hc (by simp)
    · rw [heq] at hmem
      rcases List.mem_append.mp hmem with hmem | hmem
      · exact absurd (hpre _ hmem) (by simp [Event.isTerminal])
      · exact absurd (List.mem_singleton.mp hmem) (by simp)
  · rw [hstream]

theorem C4_fetch_failure_aborts_witness :
    (∃ msg, Event.error msg ∈
      (buildTreeStream wHash (fun _ => "") (fun _ => none) 0 0 (some "old")).1) ∧
    Event.complete ∉ (buildTreeStream wHash (fun _ => "") (fun _ => none) 0 0
      (some "old")).1 ∧
    (buildTreeStream wHash (fun _ => "") (fun _ => none) 0 0 (some "old")).2 =
      some "old" :=
  C4_fetch_failure_aborts wHash (fun _ => "") (fun _ => none) 0 0 (some "old")
    ⟨0, le_rfl, le_rfl, rfl⟩

/-- C8: every invocation of `build_tree_stream` yields a finite event
sequence with exactly one terminal event (an error or a complete), which is
the last event yielded: every earlier event is a progress event. -/
theorem C8_single_terminal_event (keccak : Bytes → Bytes) (dump : Json → String)
    (fetch : Int → Option Bytes) (blockStart blockEnd : Int) (prior : Option String) :
    ∃ pre last,
      (buildTreeStream keccak dump fetch blockStart blockEnd prior).1 =
        pre ++ [last] ∧
      last.isTerminal = true ∧ ∀ e ∈ pre, e.isTerminal = false := by
  rcases h2 : (collectLoop fetch ((blockEnd + 1 - blockStart).toNat) blockStart 0
      ((blockEnd + 1 - blockStart).toNat)).2 with _ | pairs
  · have hstream := buildTreeStream_fail_eq keccak dump fetch blockStart blockEnd
      prior h2
    rcases collectLoop_none_events fetch _ _ blockStart 0 h2 with ⟨pre, msg, heq, hpre⟩
    refine ⟨Event.progress "started"
        ("Building tree for blocks " ++ toString blockStart ++ " -> " ++
          toString blockEnd) :: pre, Event.error msg, ?_, rfl, ?_⟩
    · rw [hstream, heq]
      rfl
    · intro e he
      rcases List.mem_cons.mp he with rfl | he
      · rfl
      · exact hpre e he
  · have hstream1 :
        (buildTreeStream keccak dump fetch blockStart blockEnd prior).1 =
          Event.progress "started"
            ("Building tree for blocks " ++ toString blockStart ++ " -> " ++
              toString blockEnd) ::
          ((collectLoop fetch ((blockEnd + 1 - blockStart).toNat) blockStart 0
              ((blockEnd + 1 - blockStart).toNat)).1 ++
            [Event.progress "building"
              ("Collected " ++ toString (pairs.map Prod.snd).length ++
                " state roots, building tree..."),
             Event.complete]) := by
      simp only [buildTreeStream]
      rw [h2]
      rfl
    refine ⟨Event.progress "started"
        ("Building tree for blocks " ++ toString blockStart ++ " -> " ++
          toString blockEnd) ::
        ((collectLoop fetch ((blockEnd + 1 - blockStart).toNat) blockStart 0
            ((blockEnd + 1 - blockStart).toNat)).1 ++
          [Event.progress "building"
            ("Collected " ++ toString (pairs.map Prod.snd).length ++
              " state roots, building tree...")]),
      Event.complete, ?_, rfl, ?_⟩
    · rw [hstream1]
      simp
    · intro e he
      rcases List.mem_cons.mp he with rfl | he
      · rfl
      · rcases List.mem_append.mp he with he | he
        · exact collectLoop_some_events fetch _ _ blockStart 0 pairs h2 e he
        · rcases List.mem_singleton.mp he with rfl
          rfl

/-- C7: `load_tree` on a missing file, or on contents the JSON parser
rejects, returns `None` (both exceptions are caught). -/
theorem C7_load_tree_absent (parse : String → Option Json) (file : Option String)
    (h : file = none ∨ ∃ s, file = some s ∧ parse s = none) :
    load_tree parse file = none := by
  rcases h with rfl | ⟨s, rfl, hp⟩
  · rfl
  · exact hp

theorem C7_load_tree_absent_witness :
    load_tree (fun _ => none) (some "not json") = none :=
  C7_load_tree_absent (fun _ => none) (some "not json")
    (Or.inr ⟨"not json", rfl, rfl⟩)

/-- Decoding the stored `commitmentsBFS` recovers the stored strings. -/
theorem jsonToStrList_encode (l : List String) :
    jsonToStrList (.arr (l.map Json.str)) = l := by
  induction l with
  | nil => rfl
  | cons s l ih =>
    simp only [jsonToStrList, List.map_cons] at ih ⊢
    rw [ih]

/-- C5: persistence round-trips losslessly: when the external JSON layer
parses back what it dumped, `get_tree_hierarchical` applied to the file
that the build wrote returns exactly the metadata of the envelope and the
same hierarchical tree as projecting the in-memory envelope directly. -/
theorem C5_persistence_roundtrip (parse : String → Option Json)
    (dump : Json → String) (e : Envelope)
    (hparse : parse (dump (encodeEnvelope e)) = some (encodeEnvelope e)) :
    get_tree_hierarchical parse (save_tree dump e) =
      some { blockStart := some (.num e.blockStart),
             blockEnd := some (.num e.blockEnd),
             depth := some (.num e.depth),
             totalNodes := e.commitmentsBFS.length,
             rootCommitment := some (match e.rootCommitment with
               | some s => Json.str s | none => Json.null),
             tree := projectEnvelope e,
             blocks := .arr (e.blocks.map
               (fun p => .obj [("number", .num p.1), ("stateRoot", .str p.2)])) } := by
  simp only [get_tree_hierarchical, save_tree, load_tree]
  rw [hparse]
  simp [encodeEnvelope, Json.isTruthy, Json.get, Json.getD, lookupField,
    jsonToStrList_encode, jsonToInt, jsonToNat, projectEnvelope]

theorem C5_persistence_roundtrip_witness :
    get_tree_hierarchical (fun _ => some (encodeEnvelope wEnvelope))
        (save_tree (fun _ => "") wEnvelope) =
      some { blockStart := some (.num 100), blockEnd := some (.num 100),
             depth := some (.num 1), totalNodes := 3,
             rootCommitment := some (.str "0xroot"),
             tree := projectEnvelope wEnvelope,
             blocks := .arr [.obj [("number", .num 100), ("stateRoot", .str "0xaa")]] } :=
  C5_persistence_roundtrip (fun _ => some (encodeEnvelope wEnvelope)) (fun _ => "")
    wEnvelope rfl
